import Mathlib

/-!
# Verification of the mac-app-remover core (`src/lib.rs`, `src/main.rs`, `src/bin/gui.rs`)

Shallow embedding of the residual-file discovery and sized-removal engine.

Modelling conventions:

* Paths are `String`s; `Path::join` is `dir ++ "/" ++ name`.  Rust's `Vec<PathBuf>::sort`
  compares paths component-wise (each component byte-wise); on every list this program
  sorts, that order coincides with byte-wise order on the full path string, because no
  searched directory name is a prefix of a sibling directory name, entry names contain
  no `/`, and all paths in one list share the same home prefix.  UTF-8 byte order equals
  codepoint order, so the embedding compares codepoints.
* The filesystem is a snapshot `FS`: `readDir` returns the entry names of a directory in
  enumeration order (`none` = the `read_dir` call fails), and `pathExists` models
  `Path::exists`.  Rust's stable `sort_by` is modelled by `List.insertionSort`, which is
  also stable; stable sorts of the same list under the same total preorder are
  extensionally equal.
* `dir_size` recurses over the real directory tree, so it gets its own inductive
  filesystem `FSNode`, with explicit constructors for a node whose `stat`/`metadata`
  fails and for a directory whose `read_dir` fails.
* `to_lowercase` / `to_ascii_lowercase` are both modelled by mapping `Char.toLower`
  (ASCII case folding); this is exact for `to_ascii_lowercase` and agrees with
  `to_lowercase` on all ASCII text (every concrete string in the claims is ASCII).
* `format!("{:.1}", bytes as f64 / unit as f64)` is modelled by exact rational rounding
  half-to-even to one decimal; since every `unit` is a power of two this matches the
  binary64 computation exactly for all `bytes < 2^53`.
* Machine integers (`u64` sizes) are modelled as `Nat`; the sums in `dir_size` cannot
  overflow for any input the tool can meet, and the claims do not concern overflow.
-/

/-! ## String primitives (kernel-computable replacements for `str` operations) -/

/-- Byte-wise (= codepoint-wise) lexicographic `≤` on character lists, the order Rust
uses to compare `str`/`String` and path components. -/
def lexLe : List Char → List Char → Bool
  | [], _ => true
  | _ :: _, [] => false
  | a :: as, b :: bs => if a < b then true else if b < a then false else lexLe as bs

/-- Lexicographic `≤` on full path strings. -/
def pathLe (a b : String) : Prop := lexLe a.data b.data = true

instance : DecidableRel pathLe := fun a b => inferInstanceAs (Decidable (_ = true))

/-- Model of Rust `str::to_lowercase` / `to_ascii_lowercase` (ASCII case folding). -/
def strToLower (s : String) : String := ⟨s.data.map Char.toLower⟩

/-- Model of Rust `str::ends_with`. -/
def strEndsWith (s suffix : String) : Bool := suffix.data.isSuffixOf s.data

/-- Model of Rust `str::contains` (substring test; the empty needle matches). -/
def strContains (hay needle : String) : Bool :=
  (List.range (hay.data.length + 1)).any fun i => needle.data.isPrefixOf (hay.data.drop i)

/-- Model of `Vec::sort` on a list of paths (see the header note on path order). -/
def sortStrings (l : List String) : List String := List.insertionSort pathLe l

/-- Model of `Vec::dedup`: removes consecutive equal elements. -/
def dedupAdj : List String → List String
  | [] => []
  | [a] => [a]
  | a :: b :: rest => if a = b then dedupAdj (b :: rest) else a :: dedupAdj (b :: rest)

/-- Characters of the last `/`-separated component of a path: model of
`Path::file_name` for the paths this program builds (a directory joined with a
slash-free, nonempty entry name). -/
def fileNameData (cs : List Char) : List Char :=
  cs.foldl (fun acc c => if c = '/' then [] else acc ++ [c]) []

/-- Index of the last `.` in a file name, if any. -/
def lastDotIdx (fn : List Char) : Option Nat :=
  match (fn.reverse).findIdx? (fun c => c == '.') with
  | none => none
  | some j => some (fn.length - 1 - j)

/-- Model of Rust std's `split_file_at_dot`: `(stem, extension)` for a file name.
The extension is the part after the last dot, unless there is no dot, the only dot
is leading, or the file name is `..`. -/
def splitAtLastDot (fn : List Char) : List Char × Option (List Char) :=
  if fn = ['.', '.'] then (fn, none)
  else
    match lastDotIdx fn with
    | none => (fn, none)
    | some 0 => (fn, none)
    | some i => (fn.take i, some (fn.drop (i + 1)))

/-- Model of `Path::extension().and_then(|e| e.to_str())`. -/
def extension_of (p : String) : Option String :=
  match splitAtLastDot (fileNameData p.data) with
  | (_, some e) => some ⟨e⟩
  | (_, none) => none

/-- Model of `Path::file_stem().unwrap_or_default()` (as a string). -/
def file_stem_of (p : String) : String :=
  if fileNameData p.data = ['.', '.'] then "" else ⟨(splitAtLastDot (fileNameData p.data)).1⟩

/-! ## Filesystem snapshot for the path-scanning functions -/

/-- A filesystem snapshot, as consumed by the library's scanning functions:
`readDir dir` is the list of entry names `fs::read_dir(dir)` enumerates (in
enumeration order), or `none` when that call fails; `pathExists` models
`Path::exists`. -/
structure FS where
  readDir : String → Option (List String)
  pathExists : String → Bool

/-! ## `get_installed_apps` (lib.rs 16-41) -/

/-- The two application roots, in the fixed priority order of the source:
`/Applications`, then `~/Applications`. -/
def appRoots (home : String) : List String :=
  ["/Applications", home ++ "/Applications"]

/-- One iteration of the enumeration loop of `get_installed_apps`: the `.app`
entries of one root, as full paths, in enumeration order (a failed `read_dir`
contributes nothing). -/
def appsInDir (fs : FS) (dir : String) : List String :=
  match fs.readDir dir with
  | none => []
  | some entries =>
      (entries.filter fun n => extension_of (dir ++ "/" ++ n) == some "app").map
        fun n => dir ++ "/" ++ n

/-- The unsorted bundle list `apps` of `get_installed_apps` just before `sort_by`. -/
def appsScan (fs : FS) (home : String) : List String :=
  (appRoots home).foldl (fun acc dir => acc ++ appsInDir fs dir) []

/-- Sort key of `get_installed_apps`: `file_stem().unwrap_or_default().to_ascii_lowercase()`. -/
def appSortKey (p : String) : String := strToLower (file_stem_of p)

/-- The comparator passed to `sort_by` in `get_installed_apps`. -/
def appKeyLe (a b : String) : Prop := lexLe (appSortKey a).data (appSortKey b).data = true

instance : DecidableRel appKeyLe := fun a b => inferInstanceAs (Decidable (_ = true))

/-- Model of `get_installed_apps` (lib.rs 16-41): enumerate `.app` entries of the two
roots, then stable-sort case-insensitively by file stem. -/
def get_installed_apps (fs : FS) (home : String) : List String :=
  List.insertionSort appKeyLe (appsScan fs home)

/-! ## `find_app` (lib.rs 65-99) -/

/-- The name normalisation of `find_app`: append `.app` unless already present. -/
def normalizeAppName (name : String) : String :=
  if strEndsWith name ".app" then name else name ++ ".app"

/-- The exact-match pass of `find_app`: first root whose joined path exists. -/
def exactSearch (fs : FS) (fn : String) : List String → Option String
  | [] => none
  | d :: rest =>
      if fs.pathExists (d ++ "/" ++ fn) then some (d ++ "/" ++ fn)
      else exactSearch fs fn rest

/-- The case-insensitive pass of `find_app`: scan each root's entries in order,
returning the first whose lowercased name equals `lower`; an unreadable root is
skipped. -/
def ciSearch (fs : FS) (lower : String) : List String → Option String
  | [] => none
  | d :: rest =>
      match fs.readDir d with
      | none => ciSearch fs lower rest
      | some es =>
          match es.find? (fun n => strToLower n == lower) with
          | some n => some (d ++ "/" ++ n)
          | none => ciSearch fs lower rest

/-- Model of `find_app` (lib.rs 65-99). -/
def find_app (fs : FS) (home name : String) : Option String :=
  match exactSearch fs (normalizeAppName name) (appRoots home) with
  | some p => some p
  | none => ciSearch fs (strToLower (normalizeAppName name)) (appRoots home)

/-! ## `find_related_files` (lib.rs 119-175) -/

/-- The ten fixed per-user search directories of `find_related_files`, in source order. -/
def searchDirs (home : String) : List String :=
  [home ++ "/Library/Application Support",
   home ++ "/Library/Caches",
   home ++ "/Library/Preferences",
   home ++ "/Library/Logs",
   home ++ "/Library/Containers",
   home ++ "/Library/Group Containers",
   home ++ "/Library/Saved Application State",
   home ++ "/Library/WebKit",
   home ++ "/Library/HTTPStorages",
   home ++ "/Library/Cookies"]

/-- The search-term list of `find_related_files`: the display name, plus the bundle
identifier when present. -/
def searchTermsOf (app_name : String) (bundle_id : Option String) : List String :=
  app_name :: (match bundle_id with | some id => [id] | none => [])

/-- The four-way match of one entry name against one term (lib.rs 149-154):
exact, case-insensitive, substring, case-insensitive substring. -/
def matchesOne (entry_name term : String) : Bool :=
  entry_name == term
    || strToLower entry_name == strToLower term
    || strContains entry_name term
    || strContains (strToLower entry_name) (strToLower term)

/-- The inner term loop of `find_related_files` (lib.rs 148-159): push the entry
path at the first matching term and stop scanning terms for this entry. -/
def visitEntry (entryPath entryName : String) (terms found : List String) : List String :=
  match terms with
  | [] => found
  | t :: rest =>
      if matchesOne entryName t then found ++ [entryPath]
      else visitEntry entryPath entryName rest found

/-- The per-directory loop body of `find_related_files` (lib.rs 141-162): skip a
directory that does not exist or cannot be read, else visit each entry once. -/
def visitDir (fs : FS) (dir : String) (terms found : List String) : List String :=
  if !fs.pathExists dir then found
  else
    match fs.readDir dir with
    | none => found
    | some entries =>
        entries.foldl (fun acc n => visitEntry (dir ++ "/" ++ n) n terms acc) found

/-- The `found` list of `find_related_files` after the directory scan, before the
plist probe and the final `sort`/`dedup`. -/
def residualScan (fs : FS) (home : String) (terms : List String) : List String :=
  (searchDirs home).foldl (fun acc dir => visitDir fs dir terms acc) []

/-- The conventional preferences path probed for a bundle identifier:
`~/Library/Preferences/<id>.plist`. -/
def plistPath (home id : String) : String :=
  (home ++ "/Library/Preferences") ++ "/" ++ (id ++ ".plist")

/-- Model of `find_related_files` (lib.rs 119-175). -/
def find_related_files (fs : FS) (home app_name : String) (bundle_id : Option String) :
    List String :=
  let found := residualScan fs home (searchTermsOf app_name bundle_id)
  let found2 :=
    match bundle_id with
    | some id =>
        let plist_file := plistPath home id
        if fs.pathExists plist_file && !(found.contains plist_file) then found ++ [plist_file]
        else found
    | none => found
  dedupAdj (sortStrings found2)

/-! ## `dir_size` (lib.rs 202-217) -/

/-- A node of the on-disk tree as `dir_size` can observe it.  `statErr` is a path
whose `metadata` (stat) fails; `unreadableDir` is a directory whose metadata succeeds
but whose `read_dir` fails. -/
inductive FSNode where
  | file (len : Nat)
  | dir (entries : List (String × FSNode))
  | unreadableDir
  | statErr

/-- Observable metadata of a node: `none` when stat fails, else whether it is a
directory and its length (the length of a directory node is never consumed by
`dir_size`, which recurses instead). -/
def metadataOf : FSNode → Option (Bool × Nat)
  | .file len => some (false, len)
  | .dir _ => some (true, 0)
  | .unreadableDir => some (true, 0)
  | .statErr => none

mutual

/-- Model of `dir_size` (lib.rs 202-217).  A file returns its length.  Otherwise the
node must be a readable directory (`read_dir(path)?`), and its entries are summed:
`entry.metadata()?` propagates a child stat failure as an error, a child directory's
recursive failure is absorbed as 0 (`unwrap_or(0)`), a non-directory child adds its
length. -/
def dir_size : FSNode → Option Nat
  | .file len => some len
  | .dir entries => dirEntriesSize entries
  | .unreadableDir => none
  | .statErr => none

/-- The entry loop of `dir_size`. -/
def dirEntriesSize : List (String × FSNode) → Option Nat
  | [] => some 0
  | (_, c) :: rest =>
      match metadataOf c with
      | none => none
      | some m =>
          let contrib := if m.1 then (dir_size c).getD 0 else m.2
          (dirEntriesSize rest).map fun t => contrib + t

end

/-! ## `format_size` (lib.rs 219-233) -/

/-- Nearest integer to `n / unit`, ties to even: the rounding Rust float formatting
applies when printing with fixed precision. -/
def roundHalfEven (n unit : Nat) : Nat :=
  let q := n / unit
  let r := n % unit
  if 2 * r < unit then q
  else if unit < 2 * r then q + 1
  else if q % 2 = 0 then q else q + 1

/-- Model of `format!("{:.1}", bytes as f64 / unit as f64)`: one decimal digit,
correctly rounded (exact for power-of-two units and `bytes < 2^53`, see header). -/
def formatOneDec (bytes unit : Nat) : String :=
  let t := roundHalfEven (bytes * 10) unit
  Nat.repr (t / 10) ++ "." ++ Nat.repr (t % 10)

/-- Model of `format_size` (lib.rs 219-233). -/
def format_size (bytes : Nat) : String :=
  let kb := 1024
  let mb := kb * 1024
  let gb := mb * 1024
  if bytes ≥ gb then formatOneDec bytes gb ++ " GB"
  else if bytes ≥ mb then formatOneDec bytes mb ++ " MB"
  else if bytes ≥ kb then formatOneDec bytes kb ++ " KB"
  else Nat.repr bytes ++ " B"

/-! ## The removal sequence of `remove_app` (main.rs 165-186) and
`App::start_removal` (gui.rs 149-189) -/

/-- One per-path outcome of a removal operation (the spec's `RemovalOutcome`). -/
structure RemovalOutcome where
  path : String
  success : Bool
deriving DecidableEq

/-- The deletion loop shared by `remove_app` and `start_removal`: attempt every path
in order, record one outcome each, never abort.  `del p` abstracts whether
`remove_path(p)` succeeds. -/
def attemptRemovals (del : String → Bool) : List String → List RemovalOutcome
  | [] => []
  | p :: rest => ⟨p, del p⟩ :: attemptRemovals del rest

/-- Model of the removal sequence of `remove_app` (main.rs 165-186): the bundle path
first, then each residual path in the order supplied. -/
def remove_app (del : String → Bool) (bundle : String) (residuals : List String) :
    List RemovalOutcome :=
  attemptRemovals del (bundle :: residuals)

/-! ## Order lemmas for `lexLe` -/

theorem lexLe_refl : ∀ a : List Char, lexLe a a = true
  | [] => rfl
  | a :: as => by simp [lexLe, lexLe_refl as]

theorem lexLe_total : ∀ a b : List Char, lexLe a b = true ∨ lexLe b a = true
  | [], _ => .inl rfl
  | _ :: _, [] => .inr rfl
  | a :: as, b :: bs => by
    simp only [lexLe]
    rcases lt_trichotomy a b with h | h | h
    · simp [h]
    · subst h
      simp only [lt_irrefl, if_false]
      exact lexLe_total as bs
    · simp [h, not_lt_of_gt h]

theorem lexLe_antisymm : ∀ a b : List Char, lexLe a b = true → lexLe b a = true → a = b
  | [], [], _, _ => rfl
  | [], _ :: _, _, hba => by simp [lexLe] at hba
  | _ :: _, [], hab, _ => by simp [lexLe] at hab
  | a :: as, b :: bs, hab, hba => by
    simp only [lexLe] at hab hba
    rcases lt_trichotomy a b with h | h | h
    · simp [h, not_lt_of_gt h] at hba
    · subst h
      simp only [lt_irrefl, if_false] at hab hba
      rw [lexLe_antisymm as bs hab hba]
    · simp [h, not_lt_of_gt h] at hab

theorem lexLe_trans : ∀ a b c : List Char,
    lexLe a b = true → lexLe b c = true → lexLe a c = true
  | [], _, _, _, _ => rfl
  | _ :: _, [], _, hab, _ => by simp [lexLe] at hab
  | _ :: _, _ :: _, [], _, hbc => by simp [lexLe] at hbc
  | a :: as, b :: bs, c :: cs, hab, hbc => by
    simp only [lexLe] at hab hbc ⊢
    rcases lt_trichotomy a b with h1 | h1 | h1
    · rcases lt_trichotomy b c with h2 | h2 | h2
      · simp [lt_trans h1 h2]
      · subst h2; simp [h1]
      · simp [h2, not_lt_of_gt h2] at hbc
    · subst h1
      rcases lt_trichotomy a c with h2 | h2 | h2
      · simp [h2]
      · subst h2
        simp only [lt_irrefl, if_false] at hab hbc ⊢
        exact lexLe_trans as bs cs hab hbc
      · simp [h2, not_lt_of_gt h2] at hbc
    · simp [h1, not_lt_of_gt h1] at hab

theorem pathLe_refl (a : String) : pathLe a a := lexLe_refl a.data

theorem pathLe_total (a b : String) : pathLe a b ∨ pathLe b a := lexLe_total a.data b.data

theorem pathLe_antisymm {a b : String} (hab : pathLe a b) (hba : pathLe b a) : a = b :=
  String.ext (lexLe_antisymm a.data b.data hab hba)

theorem pathLe_trans {a b c : String} (hab : pathLe a b) (hbc : pathLe b c) : pathLe a c :=
  lexLe_trans a.data b.data c.data hab hbc

/-! ## `dedupAdj` lemmas -/

theorem dedupAdj_sublist : ∀ l : List String, List.Sublist (dedupAdj l) l
  | [] => List.Sublist.refl _
  | [a] => List.Sublist.refl _
  | a :: b :: rest => by
    by_cases h : a = b
    · simp only [dedupAdj, if_pos h]
      exact (dedupAdj_sublist (b :: rest)).cons a
    · simp only [dedupAdj, if_neg h]
      exact (dedupAdj_sublist (b :: rest)).cons₂ a

theorem mem_dedupAdj {x : String} : ∀ {l : List String}, x ∈ dedupAdj l ↔ x ∈ l := by
  intro l
  constructor
  · exact fun h => (dedupAdj_sublist l).mem h
  · intro h
    induction l with
    | nil => cases h
    | cons a rest ih =>
      match rest, h with
      | [], h => exact h
      | b :: rest, h =>
        by_cases hab : a = b
        · simp only [dedupAdj, if_pos hab]
          rcases List.mem_cons.mp h with h1 | h1
          · exact ih (by simp [h1, hab])
          · exact ih h1
        · simp only [dedupAdj, if_neg hab]
          rcases List.mem_cons.mp h with h1 | h1
          · exact List.mem_cons.mpr (Or.inl h1)
          · exact List.mem_cons.mpr (Or.inr (ih h1))

theorem dedupAdj_sorted {l : List String} (h : l.Sorted pathLe) :
    (dedupAdj l).Sorted pathLe :=
  h.sublist (dedupAdj_sublist l)

theorem dedupAdj_nodup : ∀ {l : List String}, l.Sorted pathLe → (dedupAdj l).Nodup := by
  intro l h
  induction l with
  | nil => exact List.nodup_nil
  | cons a rest ih =>
    match rest, h with
    | [], _ => simp [dedupAdj]
    | b :: rest, h =>
      have hsorted_tail : (b :: rest).Sorted pathLe := h.of_cons
      by_cases hab : a = b
      · simp only [dedupAdj, if_pos hab]
        exact ih hsorted_tail
      · simp only [dedupAdj, if_neg hab]
        refine List.nodup_cons.mpr ⟨?_, ih hsorted_tail⟩
        intro hmem
        have hmem' : a ∈ b :: rest := mem_dedupAdj.mp hmem
        have hba : pathLe b a := by
          rcases List.mem_cons.mp hmem' with h1 | h1
          · exact h1 ▸ pathLe_refl a
          · exact List.rel_of_sorted_cons hsorted_tail a h1
        have hab' : pathLe a b := List.rel_of_sorted_cons h b (by simp)
        exact hab (pathLe_antisymm hab' hba)

/-! ## Characterisation of the residual scan -/

theorem nil_isPrefixOf (l : List Char) : ([] : List Char).isPrefixOf l = true := by
  cases l <;> rfl

theorem strContains_empty (s : String) : strContains s "" = true := by
  simp only [strContains, List.any_eq_true]
  exact ⟨0, by simp [List.mem_range], nil_isPrefixOf _⟩

/-- The inner term loop pushes the entry path at most once: it appends exactly one
occurrence when some term matches (short-circuiting at the first), and nothing
otherwise. -/
theorem visitEntry_eq (entryPath entryName : String) :
    ∀ (terms found : List String),
      visitEntry entryPath entryName terms found =
        found ++ (if terms.any (fun t => matchesOne entryName t) then [entryPath] else [])
  | [], found => by simp [visitEntry]
  | t :: rest, found => by
    by_cases h : matchesOne entryName t
    · simp [visitEntry, h]
    · simp only [visitEntry, if_neg h, visitEntry_eq entryPath entryName rest found,
        List.any_cons]
      simp [h]

/-- The matched entries one directory contributes, as full paths in enumeration
order. -/
def dirResiduals (fs : FS) (dir : String) (terms : List String) : List String :=
  if fs.pathExists dir then
    match fs.readDir dir with
    | none => []
    | some entries =>
        (entries.filter fun n => terms.any (fun t => matchesOne n t)).map
          fun n => dir ++ "/" ++ n
  else []

theorem foldl_visitEntry (dir : String) (terms : List String) :
    ∀ (entries found : List String),
      entries.foldl (fun acc n => visitEntry (dir ++ "/" ++ n) n terms acc) found =
        found ++ ((entries.filter fun n => terms.any (fun t => matchesOne n t)).map
          fun n => dir ++ "/" ++ n)
  | [], found => by simp
  | n :: rest, found => by
    rw [List.foldl_cons, visitEntry_eq, foldl_visitEntry dir terms rest, List.filter_cons]
    by_cases h : terms.any (fun t => matchesOne n t)
    · simp [h, List.append_assoc]
    · simp [h]

theorem visitDir_eq (fs : FS) (dir : String) (terms : List String) (found : List String) :
    visitDir fs dir terms found = found ++ dirResiduals fs dir terms := by
  by_cases hex : fs.pathExists dir
  · simp only [visitDir, dirResiduals, hex, Bool.not_true, Bool.false_eq_true, if_false,
      if_true]
    cases hrd : fs.readDir dir with
    | none => simp
    | some entries => simp [foldl_visitEntry]
  · simp [visitDir, dirResiduals, hex]

theorem foldl_append_flatMap {α β : Type} (g : β → List α) :
    ∀ (l : List β) (init : List α),
      l.foldl (fun acc x => acc ++ g x) init = init ++ l.flatMap g
  | [], init => by simp
  | x :: rest, init => by
    rw [List.foldl_cons, foldl_append_flatMap g rest, List.flatMap_cons, List.append_assoc]

theorem foldl_visitDir_eq (fs : FS) (terms : List String)
    (dirs : List String) (init : List String) :
    dirs.foldl (fun acc dir => visitDir fs dir terms acc) init =
      init ++ dirs.flatMap (fun dir => dirResiduals fs dir terms) := by
  rw [List.foldl_ext _ (fun acc dir => acc ++ dirResiduals fs dir terms) init
      (fun acc dir _ => visitDir_eq fs dir terms acc),
    foldl_append_flatMap]

theorem residualScan_eq (fs : FS) (home : String) (terms : List String) :
    residualScan fs home terms =
      (searchDirs home).flatMap (fun dir => dirResiduals fs dir terms) := by
  simp [residualScan, foldl_visitDir_eq]

/-- Membership in the pre-dedup scan list. -/
theorem mem_residualScan (fs : FS) (home : String) (terms : List String) (p : String) :
    p ∈ residualScan fs home terms ↔
      ∃ dir ∈ searchDirs home, fs.pathExists dir = true ∧
        ∃ es, fs.readDir dir = some es ∧
          ∃ n ∈ es, p = dir ++ "/" ++ n ∧ terms.any (fun t => matchesOne n t) = true := by
  rw [residualScan_eq]
  simp only [List.mem_flatMap]
  constructor
  · rintro ⟨dir, hdir, hp⟩
    refine ⟨dir, hdir, ?_⟩
    simp only [dirResiduals] at hp
    by_cases hex : fs.pathExists dir
    · refine ⟨hex, ?_⟩
      rw [if_pos hex] at hp
      cases hrd : fs.readDir dir with
      | none => rw [hrd] at hp; simp at hp
      | some es =>
        rw [hrd] at hp
        simp only [List.mem_map, List.mem_filter] at hp
        obtain ⟨n, ⟨hn, hmatch⟩, rfl⟩ := hp
        exact ⟨es, rfl, n, hn, rfl, hmatch⟩
    · rw [if_neg hex] at hp; simp at hp
  · rintro ⟨dir, hdir, hex, es, hrd, n, hn, rfl, hmatch⟩
    refine ⟨dir, hdir, ?_⟩
    simp only [dirResiduals, if_pos hex, hrd, List.mem_map, List.mem_filter]
    exact ⟨n, ⟨hn, hmatch⟩, rfl⟩

/-! ## Stability of the stable sort -/

theorem filter_orderedInsert {α : Type} (r : α → α → Prop) [DecidableRel r]
    (p : α → Bool) (hp : ∀ x y, p x = true → p y = true → r x y) (a : α) :
    ∀ l : List α, (List.orderedInsert r a l).filter p =
      if p a then a :: l.filter p else l.filter p
  | [] => by
    by_cases ha : p a <;> simp [List.orderedInsert, List.filter_cons, ha]
  | b :: l => by
    simp only [List.orderedInsert]
    by_cases hr : r a b
    · by_cases ha : p a <;> simp [hr, List.filter_cons, ha]
    · by_cases hb : p b
      · by_cases ha : p a
        · exact absurd (hp a b ha hb) hr
        · simp [hr, List.filter_cons, hb, filter_orderedInsert r p hp a l, ha]
      · simp [hr, List.filter_cons, hb, filter_orderedInsert r p hp a l]

theorem filter_insertionSort {α : Type} (r : α → α → Prop) [DecidableRel r]
    (p : α → Bool) (hp : ∀ x y, p x = true → p y = true → r x y) :
    ∀ l : List α, (List.insertionSort r l).filter p = l.filter p
  | [] => rfl
  | a :: l => by
    simp only [List.insertionSort, filter_orderedInsert r p hp, List.filter_cons]
    by_cases ha : p a <;> simp [ha, filter_insertionSort r p hp l]

/-! ## Characterisation of the bundle enumeration -/

theorem appsScan_eq (fs : FS) (home : String) :
    appsScan fs home = (appRoots home).flatMap (appsInDir fs) := by
  simp [appsScan, foldl_append_flatMap]

theorem mem_appsScan (fs : FS) (home : String) (p : String) :
    p ∈ appsScan fs home ↔
      ∃ dir ∈ appRoots home, ∃ es, fs.readDir dir = some es ∧
        ∃ n ∈ es, p = dir ++ "/" ++ n ∧ extension_of (dir ++ "/" ++ n) = some "app" := by
  rw [appsScan_eq]
  simp only [List.mem_flatMap]
  constructor
  · rintro ⟨dir, hdir, hp⟩
    simp only [appsInDir] at hp
    cases hrd : fs.readDir dir with
    | none => rw [hrd] at hp; simp at hp
    | some es =>
      rw [hrd] at hp
      simp only [List.mem_map, List.mem_filter] at hp
      obtain ⟨n, ⟨hn, hext⟩, rfl⟩ := hp
      exact ⟨dir, hdir, es, hrd, n, hn, rfl, by simpa using hext⟩
  · rintro ⟨dir, hdir, es, hrd, n, hn, rfl, hext⟩
    refine ⟨dir, hdir, ?_⟩
    simp only [appsInDir, hrd, List.mem_map, List.mem_filter]
    exact ⟨n, ⟨hn, by simpa using hext⟩, rfl⟩

/-! ## Lemmas about the two passes of `find_app` -/

theorem exactSearch_some (fs : FS) (fn : String) :
    ∀ (dirs : List String) (p : String), exactSearch fs fn dirs = some p →
      ∃ d ∈ dirs, p = d ++ "/" ++ fn ∧ fs.pathExists (d ++ "/" ++ fn) = true
  | [], p, h => by simp [exactSearch] at h
  | d :: rest, p, h => by
    by_cases hex : fs.pathExists (d ++ "/" ++ fn)
    · simp only [exactSearch, if_pos hex, Option.some.injEq] at h
      exact ⟨d, by simp, h.symm, hex⟩
    · simp only [exactSearch, if_neg hex] at h
      obtain ⟨d', hd', hp, hpe⟩ := exactSearch_some fs fn rest p h
      exact ⟨d', by simp [hd'], hp, hpe⟩

theorem ciSearch_unique (fs : FS) (target d₀ n₀ : String) :
    ∀ dirs : List String,
      d₀ ∈ dirs →
      (∃ es, fs.readDir d₀ = some es ∧ n₀ ∈ es) →
      strToLower n₀ = target →
      (∀ d ∈ dirs, ∀ es, fs.readDir d = some es →
        ∀ n ∈ es, strToLower n = target → d = d₀ ∧ n = n₀) →
      ciSearch fs target dirs = some (d₀ ++ "/" ++ n₀)
  | [], hd, _, _, _ => absurd hd (List.not_mem_nil d₀)
  | d :: rest, hd, hmem, hlow, huniq => by
    cases hrd : fs.readDir d with
    | none =>
      have hd' : d₀ ∈ rest := by
        rcases List.mem_cons.mp hd with h | h
        · exfalso
          obtain ⟨es, hes, _⟩ := hmem
          rw [← h, hes] at hrd
          cases hrd
        · exact h
      simp only [ciSearch, hrd]
      exact ciSearch_unique fs target d₀ n₀ rest hd' hmem hlow
        (fun d' hd'' => huniq d' (List.mem_cons_of_mem d hd''))
    | some es =>
      cases hfind : es.find? (fun n => strToLower n == target) with
      | some n =>
        have hpred := List.find?_some hfind
        have hn : n ∈ es := List.mem_of_find?_eq_some hfind
        have h := huniq d (by simp) es hrd n hn (by simpa using hpred)
        simp only [ciSearch, hrd, hfind]
        rw [h.1, h.2]
      | none =>
        have hd' : d₀ ∈ rest := by
          rcases List.mem_cons.mp hd with h | h
          · exfalso
            obtain ⟨es₀, hes₀, hn₀⟩ := hmem
            rw [← h, hes₀] at hrd
            cases hrd
            have hnone := List.find?_eq_none.mp hfind n₀ hn₀
            exact hnone (by simp [hlow])
          · exact h
        simp only [ciSearch, hrd, hfind]
        exact ciSearch_unique fs target d₀ n₀ rest hd' hmem hlow
          (fun d' hd'' => huniq d' (List.mem_cons_of_mem d hd''))

theorem find_app_unique_ci (fs : FS) (home target d₀ n₀ : String)
    (h1 : ∀ d ∈ appRoots home, ∀ s, fs.pathExists (d ++ "/" ++ s) = true →
      ∃ es, fs.readDir d = some es ∧ s ∈ es)
    (hmem : d₀ ∈ appRoots home)
    (hsome : ∃ es, fs.readDir d₀ = some es ∧ n₀ ∈ es)
    (hlow : strToLower n₀ = target)
    (huniq : ∀ d ∈ appRoots home, ∀ es, fs.readDir d = some es →
      ∀ n ∈ es, strToLower n = target → d = d₀ ∧ n = n₀)
    (name : String) (hname : strToLower (normalizeAppName name) = target) :
    find_app fs home name = some (d₀ ++ "/" ++ n₀) := by
  cases hex : exactSearch fs (normalizeAppName name) (appRoots home) with
  | some p =>
    obtain ⟨d, hd, rfl, hpe⟩ := exactSearch_some fs _ _ p hex
    obtain ⟨es, hes, hsmem⟩ := h1 d hd _ hpe
    have h := huniq d hd es hes _ hsmem hname
    simp only [find_app, hex]
    rw [h.1, h.2]
  | none =>
    simp only [find_app, hex, hname]
    exact ciSearch_unique fs target d₀ n₀ (appRoots home) hmem hsome hlow huniq

/-! ## Lemmas about the removal sequence -/

theorem attemptRemovals_map_path (del : String → Bool) :
    ∀ l : List String, (attemptRemovals del l).map RemovalOutcome.path = l
  | [] => rfl
  | p :: rest => by simp [attemptRemovals, attemptRemovals_map_path del rest]

theorem attemptRemovals_all_ok (del : String → Bool) :
    ∀ l : List String, (∀ p ∈ l, del p = true) →
      attemptRemovals del l = l.map fun p => ⟨p, true⟩
  | [], _ => rfl
  | p :: rest, h => by
    simp only [attemptRemovals, h p (by simp),
      attemptRemovals_all_ok del rest (fun q hq => h q (by simp [hq])), List.map_cons]

/-! ## Lemmas about `dir_size` -/

theorem dirEntriesSize_child_statErr (name : String) (c : FSNode)
    (hmeta : metadataOf c = none) :
    ∀ entries : List (String × FSNode), (name, c) ∈ entries → dirEntriesSize entries = none
  | [], h => absurd h (List.not_mem_nil _)
  | (m, c') :: rest, h => by
    rcases List.mem_cons.mp h with h1 | h1
    · have hc : c' = c := (congrArg Prod.snd h1).symm
      rw [dirEntriesSize, hc, hmeta]
    · rw [dirEntriesSize]
      cases hm : metadataOf c' with
      | none => rfl
      | some md =>
        rw [dirEntriesSize_child_statErr name c hmeta rest h1]
        rfl

/-! ## Claim theorems -/

/-- **C9**: `format_size` selects its unit by the thresholds `≥ 1024^3 → GB`,
`≥ 1024^2 → MB`, `≥ 1024 → KB`, else a plain integer with a `" B"` suffix, and on the
spec's example inputs renders `0 → "0 B"`, `1023 → "1023 B"`, `1024 → "1.0 KB"`,
`1048576 → "1.0 MB"`, `1073741824 → "1.0 GB"`. -/
theorem format_size_thresholds_and_examples : ∀ bytes : Nat,
    (1024 ^ 3 ≤ bytes → ∃ s, format_size bytes = s ++ " GB")
    ∧ (1024 ^ 2 ≤ bytes → bytes < 1024 ^ 3 → ∃ s, format_size bytes = s ++ " MB")
    ∧ (1024 ≤ bytes → bytes < 1024 ^ 2 → ∃ s, format_size bytes = s ++ " KB")
    ∧ (bytes < 1024 → format_size bytes = Nat.repr bytes ++ " B")
    ∧ format_size 0 = "0 B" ∧ format_size 1023 = "1023 B" ∧ format_size 1024 = "1.0 KB"
    ∧ format_size 1048576 = "1.0 MB" ∧ format_size 1073741824 = "1.0 GB" := by
  intro bytes
  refine ⟨?_, ?_, ?_, ?_, by decide, by decide, by decide, by decide, by decide⟩
  · intro h
    have h' : 1073741824 ≤ bytes := by norm_num at h; omega
    exact ⟨formatOneDec bytes 1073741824, by norm_num [format_size, h']⟩
  · intro h1 h2
    have ha : 1048576 ≤ bytes := by norm_num at h1; omega
    have hb : ¬ (1073741824 ≤ bytes) := by norm_num at h2; omega
    exact ⟨formatOneDec bytes 1048576, by norm_num [format_size, ha, hb]⟩
  · intro h1 h2
    have ha : ¬ (1048576 ≤ bytes) := by norm_num at h2; omega
    have hb : ¬ (1073741824 ≤ bytes) := by norm_num at h2; omega
    exact ⟨formatOneDec bytes 1024, by norm_num [format_size, h1, ha, hb]⟩
  · intro h
    have ha : ¬ (1024 ≤ bytes) := by omega
    have hb : ¬ (1048576 ≤ bytes) := by omega
    have hc : ¬ (1073741824 ≤ bytes) := by omega
    norm_num [format_size, ha, hb, hc]

/-- Witness for C9: the threshold clauses applied at concrete inputs. -/
theorem format_size_thresholds_witness :
    (∃ s, format_size 1073741824 = s ++ " GB")
    ∧ (∃ s, format_size 1048576 = s ++ " MB")
    ∧ (∃ s, format_size 1024 = s ++ " KB")
    ∧ format_size 1023 = Nat.repr 1023 ++ " B" :=
  ⟨(format_size_thresholds_and_examples 1073741824).1 (by norm_num),
   (format_size_thresholds_and_examples 1048576).2.1 (by norm_num) (by norm_num),
   (format_size_thresholds_and_examples 1024).2.2.1 (by norm_num) (by norm_num),
   (format_size_thresholds_and_examples 1023).2.2.2.1 (by norm_num)⟩

/-- **C1 counterexample**: a directory whose direct children are readable files of
100 and 200 bytes plus one child whose stat (`entry.metadata()`) fails makes
`dir_size` return an error — not `Ok(300)` — because `entry.metadata()?` propagates
the failure instead of contributing zero. -/
theorem dir_size_statfail_child_errors :
    dir_size (.dir [("a", .file 100), ("b", .statErr), ("c", .file 200)]) = none := by
  simp [dir_size, dirEntriesSize, metadataOf]

/-- **C1 (amended)**: `dir_size` fails when the initial read of the root itself fails
(a root whose stat fails, or an unreadable root directory), and *also* when the stat
of any direct child fails; fault containment at the leaf holds only for a child
*directory* that cannot be read, which contributes zero — so a directory with one
unreadable child directory and readable files of 100 and 200 bytes returns
`Ok(300)`. -/
theorem dir_size_error_containment :
    (dir_size .statErr = none ∧ dir_size .unreadableDir = none)
    ∧ (∀ (entries : List (String × FSNode)) (name : String) (c : FSNode),
        (name, c) ∈ entries → metadataOf c = none → dir_size (.dir entries) = none)
    ∧ dir_size (.dir [("a", .file 100), ("b", .unreadableDir), ("c", .file 200)]) =
        some 300 := by
  refine ⟨⟨by simp [dir_size], by simp [dir_size]⟩, ?_, ?_⟩
  · intro entries name c hmemb hmeta
    rw [dir_size]
    exact dirEntriesSize_child_statErr name c hmeta entries hmemb
  · simp [dir_size, dirEntriesSize, metadataOf]

/-- Witness for C1's amended theorem: the child-stat-failure clause applied to a
concrete one-entry directory. -/
theorem dir_size_error_containment_witness :
    dir_size (.dir [("x", .statErr)]) = none :=
  dir_size_error_containment.2.1 [("x", .statErr)] "x" .statErr (by simp) rfl

/-- **C4**: the removal sequence attempts the bundle path first, then every residual
path in the order supplied, produces exactly one outcome per attempted path in
attempt order (so one failed deletion never aborts the remaining ones), and when the
bundle deletion fails while every residual deletion succeeds the report holds
exactly one failure and N successes. -/
theorem remove_app_outcomes (del : String → Bool) (bundle : String)
    (residuals : List String) :
    (remove_app del bundle residuals).map RemovalOutcome.path = bundle :: residuals
    ∧ (remove_app del bundle residuals).length = residuals.length + 1
    ∧ (del bundle = false → (∀ p ∈ residuals, del p = true) →
        ((remove_app del bundle residuals).filter fun o => o.success == false).length = 1
        ∧ ((remove_app del bundle residuals).filter fun o => o.success == true).length =
            residuals.length) := by
  refine ⟨attemptRemovals_map_path del (bundle :: residuals), ?_, ?_⟩
  · have h := congrArg List.length (attemptRemovals_map_path del (bundle :: residuals))
    simpa [remove_app] using h
  · intro hb hr
    simp only [remove_app, attemptRemovals, hb, attemptRemovals_all_ok del residuals hr]
    constructor
    · simp [List.filter_map, Function.comp_def]
    · simp [List.filter_map, Function.comp_def]

/-- Witness for C4: a bundle whose deletion fails plus two residuals whose deletions
succeed yield one failure and two successes. -/
theorem remove_app_outcomes_witness :
    ((remove_app (fun p => !(p == "/Applications/Foo.app")) "/Applications/Foo.app"
        ["/h/Library/Caches/Foo", "/h/Library/Logs/Foo"]).filter
          fun o => o.success == false).length = 1
    ∧ ((remove_app (fun p => !(p == "/Applications/Foo.app")) "/Applications/Foo.app"
        ["/h/Library/Caches/Foo", "/h/Library/Logs/Foo"]).filter
          fun o => o.success == true).length = 2 := by
  have h := (remove_app_outcomes (fun p => !(p == "/Applications/Foo.app"))
      "/Applications/Foo.app" ["/h/Library/Caches/Foo", "/h/Library/Logs/Foo"]).2.2
      (by decide) (by decide)
  simpa using h

theorem dedup_sort_sorted_nodup (l : List String) :
    (dedupAdj (sortStrings l)).Sorted pathLe ∧ (dedupAdj (sortStrings l)).Nodup := by
  have hs : (sortStrings l).Sorted pathLe := by
    letI : IsTotal String pathLe := ⟨pathLe_total⟩
    letI : IsTrans String pathLe := ⟨fun a b c hab hbc => pathLe_trans hab hbc⟩
    exact List.sorted_insertionSort pathLe l
  exact ⟨dedupAdj_sorted hs, dedupAdj_nodup hs⟩

/-- **C2**: for every filesystem snapshot, display name and optional identifier,
`find_related_files` returns a list sorted lexicographically ascending by full path
string with all duplicates removed.  (Determinism and idempotence are immediate:
the embedding is a pure function of the snapshot, so two calls against an unchanged
filesystem are literally the same value.) -/
theorem find_related_files_sorted_nodup (fs : FS) (home app_name : String)
    (bundle_id : Option String) :
    (find_related_files fs home app_name bundle_id).Sorted pathLe
    ∧ (find_related_files fs home app_name bundle_id).Nodup := by
  simp only [find_related_files]
  exact dedup_sort_sorted_nodup _

/-- **C3**: an entry of a searched directory enters the pre-deduplication list iff
some search term (display name, or identifier when present) passes at least one of
the four checks of `matchesOne`; and the inner term loop contributes at most one
occurrence per entry, short-circuiting at the first matching term. -/
theorem residual_match_characterisation :
    (∀ (entryPath entryName : String) (terms found : List String),
      visitEntry entryPath entryName terms found =
        found ++ (if terms.any (fun t => matchesOne entryName t) then [entryPath] else []))
    ∧ (∀ (fs : FS) (home app_name : String) (bundle_id : Option String) (p : String),
        p ∈ residualScan fs home (searchTermsOf app_name bundle_id) ↔
          ∃ dir ∈ searchDirs home, fs.pathExists dir = true ∧
            ∃ es, fs.readDir dir = some es ∧
              ∃ n ∈ es, p = dir ++ "/" ++ n ∧
                (searchTermsOf app_name bundle_id).any (fun t => matchesOne n t) = true) :=
  ⟨fun entryPath entryName terms found => visitEntry_eq entryPath entryName terms found,
   fun fs home app_name bundle_id p => mem_residualScan fs home _ p⟩

/-- **C8**: with an empty display name and no identifier, every entry of every
existing, readable searched directory appears in `find_related_files`' result,
because the empty string is a substring of every entry name. -/
theorem empty_name_matches_everything (fs : FS) (home dir n : String)
    (hdir : dir ∈ searchDirs home) (hex : fs.pathExists dir = true)
    (es : List String) (hrd : fs.readDir dir = some es) (hn : n ∈ es) :
    (dir ++ "/" ++ n) ∈ find_related_files fs home "" none := by
  have hmem : (dir ++ "/" ++ n) ∈ residualScan fs home (searchTermsOf "" none) := by
    rw [mem_residualScan]
    refine ⟨dir, hdir, hex, es, hrd, n, hn, rfl, ?_⟩
    simp [searchTermsOf, matchesOne, strContains_empty n]
  simp only [find_related_files]
  exact mem_dedupAdj.mpr ((List.perm_insertionSort pathLe _).mem_iff.mpr hmem)

/-- Witness for C8: a caches directory with one entry `x`, empty application name. -/
def fsC8 : FS :=
  ⟨fun d => if d = "/h/Library/Caches" then some ["x"] else none,
   fun p => p == "/h/Library/Caches"⟩

theorem empty_name_matches_everything_witness :
    ("/h/Library/Caches" ++ "/" ++ "x") ∈ find_related_files fsC8 "/h" "" none :=
  empty_name_matches_everything fsC8 "/h" "/h/Library/Caches" "x" (by decide) (by decide)
    ["x"] (by decide) (by decide)

/-- The filesystem of the spec's Scenario B: the preferences directory holds exactly
`com.example.foo.plist`, every other searched directory is absent. -/
def fsScenB : FS :=
  ⟨fun d => if d = "/h/Library/Preferences" then some ["com.example.foo.plist"] else none,
   fun p => p == "/h/Library/Preferences"
     || p == "/h/Library/Preferences/com.example.foo.plist"⟩

/-- **C7**: when an identifier is present and `<identifier>.plist` exists in the
preferences directory, that path is in the result (deduplication removes any
redundancy with the general scan); and in Scenario B the residual set is exactly
that plist file. -/
theorem plist_probe_included :
    (∀ (fs : FS) (home app_name id : String),
      fs.pathExists (plistPath home id) = true →
        plistPath home id ∈ find_related_files fs home app_name (some id))
    ∧ find_related_files fsScenB "/h" "Foo" (some "com.example.foo") =
        ["/h/Library/Preferences/com.example.foo.plist"] := by
  constructor
  · intro fs home app_name id hex
    simp only [find_related_files]
    apply mem_dedupAdj.mpr
    apply (List.perm_insertionSort pathLe _).mem_iff.mpr
    rw [hex]
    cases hcontains :
        (residualScan fs home (searchTermsOf app_name (some id))).contains
          (plistPath home id) with
    | false => simp
    | true =>
      simp only [Bool.not_true, Bool.and_false, Bool.false_eq_true, if_false]
      simpa using hcontains
  · decide

/-- Witness for C7: the probe clause applied to Scenario B's filesystem. -/
theorem plist_probe_included_witness :
    plistPath "/h" "com.example.foo" ∈
      find_related_files fsScenB "/h" "Foo" (some "com.example.foo") :=
  plist_probe_included.1 fsScenB "/h" "Foo" "com.example.foo" (by decide)

theorem prefix_of_join (home rel n : String) (r : List Char)
    (hrel : rel.data = "/Library/".data ++ r) :
    (home ++ "/Library/").data <+: ((home ++ rel) ++ "/" ++ n).data :=
  ⟨r ++ "/".data ++ n.data, by simp [String.data_append, hrel, List.append_assoc]⟩

theorem searchDir_prefix (home dir n : String) (hdir : dir ∈ searchDirs home) :
    (home ++ "/Library/").data <+: (dir ++ "/" ++ n).data := by
  simp only [searchDirs, List.mem_cons, List.not_mem_nil, or_false] at hdir
  rcases hdir with rfl | rfl | rfl | rfl | rfl | rfl | rfl | rfl | rfl | rfl
  · exact prefix_of_join home _ n ("Application Support".data) (by decide)
  · exact prefix_of_join home _ n ("Caches".data) (by decide)
  · exact prefix_of_join home _ n ("Preferences".data) (by decide)
  · exact prefix_of_join home _ n ("Logs".data) (by decide)
  · exact prefix_of_join home _ n ("Containers".data) (by decide)
  · exact prefix_of_join home _ n ("Group Containers".data) (by decide)
  · exact prefix_of_join home _ n ("Saved Application State".data) (by decide)
  · exact prefix_of_join home _ n ("WebKit".data) (by decide)
  · exact prefix_of_join home _ n ("HTTPStorages".data) (by decide)
  · exact prefix_of_join home _ n ("Cookies".data) (by decide)

theorem plist_prefix (home id : String) :
    (home ++ "/Library/").data <+: (plistPath home id).data :=
  prefix_of_join home "/Library/Preferences" (id ++ ".plist") ("Preferences".data)
    (by decide)

/-- **C10** (implicit invariant): every path `find_related_files` returns is either a
direct (depth-one) child of one of the ten fixed per-user search directories or the
`<identifier>.plist` path in the preferences directory; in particular every returned
path lies under `<home>/Library/`, so the bundle path (under an `Applications`
root) is never in the residual set. -/
theorem residuals_within_search_space (fs : FS) (home app_name : String)
    (bundle_id : Option String) (p : String)
    (hp : p ∈ find_related_files fs home app_name bundle_id) :
    ((∃ dir ∈ searchDirs home, ∃ es, fs.readDir dir = some es ∧ ∃ n ∈ es, p = dir ++ "/" ++ n)
      ∨ (∃ id, bundle_id = some id ∧ p = plistPath home id))
    ∧ (home ++ "/Library/").data <+: p.data := by
  cases bundle_id with
  | none =>
    simp only [find_related_files] at hp
    have hp2 := (List.perm_insertionSort pathLe _).mem_iff.mp (mem_dedupAdj.mp hp)
    obtain ⟨dir, hdir, -, es, hrd, n, hn, rfl, -⟩ := (mem_residualScan fs home _ p).mp hp2
    exact ⟨.inl ⟨dir, hdir, es, hrd, n, hn, rfl⟩, searchDir_prefix home dir n hdir⟩
  | some id =>
    simp only [find_related_files] at hp
    have hp2 := (List.perm_insertionSort pathLe _).mem_iff.mp (mem_dedupAdj.mp hp)
    have hp3 : p ∈ residualScan fs home (searchTermsOf app_name (some id))
        ∨ p = plistPath home id := by
      split at hp2
      · rcases List.mem_append.mp hp2 with h1 | h1
        · exact .inl h1
        · exact .inr (by simpa using h1)
      · exact .inl hp2
    rcases hp3 with h1 | rfl
    · obtain ⟨dir, hdir, -, es, hrd, n, hn, rfl, -⟩ := (mem_residualScan fs home _ p).mp h1
      exact ⟨.inl ⟨dir, hdir, es, hrd, n, hn, rfl⟩, searchDir_prefix home dir n hdir⟩
    · exact ⟨.inr ⟨id, rfl, rfl⟩, plist_prefix home id⟩

/-- Witness for C10: a single cache entry `Foo` is decomposed by the invariant. -/
def fsC10 : FS :=
  ⟨fun d => if d = "/h/Library/Caches" then some ["Foo"] else none,
   fun p => p == "/h/Library/Caches"⟩

theorem residuals_within_search_space_witness :
    ((∃ dir ∈ searchDirs "/h", ∃ es, fsC10.readDir dir = some es ∧
        ∃ n ∈ es, ("/h/Library/Caches" ++ "/" ++ "Foo" : String) = dir ++ "/" ++ n)
      ∨ (∃ id, (none : Option String) = some id ∧
          ("/h/Library/Caches" ++ "/" ++ "Foo" : String) = plistPath "/h" id))
    ∧ ("/h" ++ "/Library/").data <+: ("/h/Library/Caches" ++ "/" ++ "Foo" : String).data :=
  residuals_within_search_space fsC10 "/h" "Foo" none ("/h/Library/Caches" ++ "/" ++ "Foo")
    (by decide)

/-- **C5**: `get_installed_apps` returns exactly one entry per `.app` bundle found in
the two roots (a permutation of the enumeration), contains a path iff it is a root
entry whose extension is exactly `app` (case-sensitive), is sorted case-insensitively
by file stem with ties left in enumeration order (the filter by any fixed key is
unchanged by the sort), and treats unreadable or absent roots as empty rather than
an error. -/
theorem installed_apps_characterisation (fs : FS) (home : String) :
    List.Perm (get_installed_apps fs home) (appsScan fs home)
    ∧ (∀ p, p ∈ get_installed_apps fs home ↔
        ∃ dir ∈ appRoots home, ∃ es, fs.readDir dir = some es ∧
          ∃ n ∈ es, p = dir ++ "/" ++ n ∧ extension_of (dir ++ "/" ++ n) = some "app")
    ∧ (get_installed_apps fs home).Sorted appKeyLe
    ∧ (∀ k : String, (get_installed_apps fs home).filter (fun p => appSortKey p == k) =
        (appsScan fs home).filter (fun p => appSortKey p == k))
    ∧ (fs.readDir "/Applications" = none → fs.readDir (home ++ "/Applications") = none →
        get_installed_apps fs home = []) := by
  refine ⟨List.perm_insertionSort appKeyLe _, ?_, ?_, ?_, ?_⟩
  · intro p
    exact Iff.trans (List.perm_insertionSort appKeyLe _).mem_iff (mem_appsScan fs home p)
  · letI : IsTotal String appKeyLe := ⟨fun a b => lexLe_total _ _⟩
    letI : IsTrans String appKeyLe := ⟨fun a b c hab hbc => lexLe_trans _ _ _ hab hbc⟩
    exact List.sorted_insertionSort appKeyLe _
  · intro k
    exact filter_insertionSort appKeyLe (fun p => appSortKey p == k)
      (fun x y hx hy => by
        have hx' : appSortKey x = k := by simpa using hx
        have hy' : appSortKey y = k := by simpa using hy
        show lexLe (appSortKey x).data (appSortKey y).data = true
        rw [hx', hy']
        exact lexLe_refl _) _
  · intro h1 h2
    simp [get_installed_apps, appsScan, appRoots, appsInDir, h1, h2, List.insertionSort]

/-- Witness for C5: when both roots are unreadable the listing is empty. -/
def fsC5 : FS := ⟨fun _ => none, fun _ => false⟩

theorem installed_apps_characterisation_witness : get_installed_apps fsC5 "/h" = [] :=
  (installed_apps_characterisation fsC5 "/h").2.2.2.2 rfl rfl

/-- **C6**: in a well-formed filesystem state (every existing child of a root is
enumerated by reading that root) containing exactly one bundle whose name matches
`chrome.app` case-insensitively, `find_app "Chrome"` and `find_app "chrome"` return
the same path, namely that unique bundle — the exact pass can only hit the unique
match, and otherwise the case-insensitive fallback finds it in root-priority
order. -/
theorem find_app_case_insensitive_agreement (fs : FS) (home d₀ n₀ : String)
    (h1 : ∀ d ∈ appRoots home, ∀ s, fs.pathExists (d ++ "/" ++ s) = true →
      ∃ es, fs.readDir d = some es ∧ s ∈ es)
    (hmem : d₀ ∈ appRoots home)
    (hsome : ∃ es, fs.readDir d₀ = some es ∧ n₀ ∈ es)
    (hlow : strToLower n₀ = "chrome.app")
    (huniq : ∀ d ∈ appRoots home, ∀ es, fs.readDir d = some es →
      ∀ n ∈ es, strToLower n = "chrome.app" → d = d₀ ∧ n = n₀) :
    find_app fs home "Chrome" = find_app fs home "chrome"
    ∧ find_app fs home "Chrome" = some (d₀ ++ "/" ++ n₀) := by
  have hC := find_app_unique_ci fs home "chrome.app" d₀ n₀ h1 hmem hsome hlow huniq
    "Chrome" (by decide)
  have hc := find_app_unique_ci fs home "chrome.app" d₀ n₀ h1 hmem hsome hlow huniq
    "chrome" (by decide)
  exact ⟨hC.trans hc.symm, hC⟩

/-- Witness for C6: one bundle `Chrome.app` in `/Applications`. -/
def fsC6 : FS :=
  ⟨fun d => if d = "/Applications" then some ["Chrome.app"] else none, fun _ => false⟩

theorem find_app_case_insensitive_agreement_witness :
    find_app fsC6 "/h" "Chrome" = find_app fsC6 "/h" "chrome"
    ∧ find_app fsC6 "/h" "Chrome" = some ("/Applications" ++ "/" ++ "Chrome.app") := by
  apply find_app_case_insensitive_agreement fsC6 "/h" "/Applications" "Chrome.app"
  · intro d hd s hex
    exact Bool.noConfusion hex
  · decide
  · exact ⟨["Chrome.app"], rfl, by decide⟩
  · decide
  · intro d hd es hes n hn hlown
    simp only [appRoots, List.mem_cons, List.not_mem_nil, or_false] at hd
    rcases hd with rfl | rfl
    · have hes2 : (some ["Chrome.app"] : Option (List String)) = some es := hes
      cases hes2
      have hn' : n = "Chrome.app" := by simpa using hn
      exact ⟨rfl, hn'⟩
    · have hes2 : (none : Option (List String)) = some es := hes
      cases hes2
